import Mathlib

/-!
Verification of core claims about the xv6 kernel (PGXIE1996/xv6).

This file gives a shallow embedding, in Lean 4, of the kernel routines
that the claims are about:

* the pipe byte ring (`pipewrite` / `piperead`, src/unnamed/part_000),
* the physical page allocator (`kfree` / `kalloc`, src/unnamed/part_001),
* the inode read/write paths (`readi` / `writei`, src/kernel/fs.c),
* the directory layer (`dirlookup` / `dirlink`, src/kernel/fs.c),
* the write-ahead log (`log_write`, `commit`, `recover_from_log`,
  src/unnamed/part_003),
* the process layer (`fork` / `wait`, src/unnamed/part_000).

Machine `uint` arithmetic is modelled on `Nat` with explicit `% 2^32`
where overflow is observable.  Fallible or panicking code returns
`Option`.  Definitions follow the C source; theorems settle the claims.
-/

/-! ## Pipes (src/unnamed/part_000, `struct pipe`, `pipewrite`, `piperead`)

`pipewrite` and `piperead` move one byte at a time while holding
`pi->lock`; `sleep` releases the lock, so any concurrent execution is a
sequence of atomic one-byte steps.  The `uint` counters `nread`/`nwrite`
are modelled as unbounded naturals: every comparison in the C code is an
equality test and every ring index is taken `% PIPESIZE`, and since
`PIPESIZE` divides `2^32` the wrapped 32-bit counters behave identically
to their unbounded counterparts as long as `nwrite - nread ≤ PIPESIZE`,
which is invariant (claim C10). -/

def PIPESIZE : Nat := 512

structure Pipe where
  data : Nat → Nat
  nread : Nat
  nwrite : Nat
  readopen : Bool
  writeopen : Bool

/-- `pipealloc` initialises `nread = nwrite = 0`, both ends open. -/
def pipeInit : Pipe :=
  { data := fun _ => 0, nread := 0, nwrite := 0,
    readopen := true, writeopen := true }

/-- One iteration of the `while (i < n)` loop body of `pipewrite` in
which a byte is accepted: if the ring is full
(`pi->nwrite == pi->nread + PIPESIZE`) the writer sleeps (`none`);
otherwise `pi->data[pi->nwrite++ % PIPESIZE] = ch`. -/
def pipeWriteByte (pi : Pipe) (ch : Nat) : Option Pipe :=
  if pi.nwrite = pi.nread + PIPESIZE then none
  else some { pi with
    data := fun j => if j = pi.nwrite % PIPESIZE then ch else pi.data j,
    nwrite := pi.nwrite + 1 }

/-- One iteration of the `for` loop body of `piperead` in which a byte
is delivered: if the ring is empty (`pi->nread == pi->nwrite`) the loop
breaks (`none`); otherwise `ch = pi->data[pi->nread++ % PIPESIZE]`. -/
def pipeReadByte (pi : Pipe) : Option (Pipe × Nat) :=
  if pi.nread = pi.nwrite then none
  else some ({ pi with nread := pi.nread + 1 },
             pi.data (pi.nread % PIPESIZE))

/-- The read loop of `piperead`: read up to `n` bytes, stopping early
when the ring drains.  Returns the final pipe and the bytes copied out
(each `copyout` is assumed to succeed). -/
def readLoop : Pipe → Nat → Pipe × List Nat
  | pi, 0 => (pi, [])
  | pi, Nat.succ k =>
    match pipeReadByte pi with
    | none => (pi, [])
    | some (pi', ch) =>
      let r := readLoop pi' k
      (r.1, ch :: r.2)

/-- The full `piperead(pi, addr, n)` call.  While the ring is empty and
the write end is open the reader sleeps (modelled as `none`); otherwise
the loop copies out up to `n` bytes. -/
def piperead (pi : Pipe) (n : Nat) : Option (Pipe × List Nat) :=
  if pi.nread = pi.nwrite ∧ pi.writeopen then none
  else some (readLoop pi n)

/-- An atomic pipe event: one byte offered by a writer, or one read
attempt by a reader. -/
inductive POp where
  | wr (ch : Nat) : POp
  | rd : POp

/-- Run a sequence of atomic byte events, logging the bytes accepted by
`pipewrite` (`w`) and the bytes delivered by `piperead` (`r`).  A full
ring leaves a write pending (the writer sleeps); an empty ring leaves a
read pending. -/
def runOps : Pipe → List Nat → List Nat → List POp → Pipe × List Nat × List Nat
  | pi, w, r, [] => (pi, w, r)
  | pi, w, r, POp.wr ch :: ops =>
    match pipeWriteByte pi ch with
    | none => runOps pi w r ops
    | some pi' => runOps pi' (w ++ [ch]) r ops
  | pi, w, r, POp.rd :: ops =>
    match pipeReadByte pi with
    | none => runOps pi w r ops
    | some (pi', ch) => runOps pi' w (r ++ [ch]) ops

/-- The coupling invariant between a pipe and its ghost write/read
logs: the counters count the logged bytes, the delivered bytes are a
prefix of the accepted ones, the ring is bounded, and every unread slot
of the ring holds the byte accepted at its write index. -/
def PipeInv (pi : Pipe) (w r : List Nat) : Prop :=
  pi.nread = r.length ∧ pi.nwrite = w.length ∧
  r = w.take r.length ∧
  pi.nread ≤ pi.nwrite ∧ pi.nwrite ≤ pi.nread + PIPESIZE ∧
  ∀ k, pi.nread ≤ k → k < pi.nwrite → pi.data (k % PIPESIZE) = w.getD k 0

theorem pipeInv_init : PipeInv pipeInit [] [] := by
  refine ⟨rfl, rfl, rfl, le_refl _, by norm_num [pipeInit, PIPESIZE], ?_⟩
  intro k hk hk'
  exact absurd (lt_of_le_of_lt hk hk') (by simp [pipeInit])

theorem mod_add_of_lt_ne {a b n : Nat} (hn : 0 < n) (hab : a < b)
    (hd : b < a + n) : a % n ≠ b % n := by
  intro h
  have hb : b = a + (b - a) := by omega
  have hd1 : 0 < b - a := by omega
  have hd2 : b - a < n := by omega
  rw [hb, Nat.add_mod] at h
  have hra : a % n < n := Nat.mod_lt _ hn
  have hrd : (b - a) % n = b - a := Nat.mod_eq_of_lt hd2
  rw [hrd] at h
  rcases Nat.lt_or_ge (a % n + (b - a)) n with hlt | hge
  · rw [Nat.mod_eq_of_lt hlt] at h
    omega
  · have : a % n + (b - a) - n < n := by omega
    rw [Nat.mod_eq_sub_mod hge, Nat.mod_eq_of_lt this] at h
    omega

theorem pipeInv_write {pi : Pipe} {w r : List Nat} {ch : Nat} {pi' : Pipe}
    (hinv : PipeInv pi w r) (hstep : pipeWriteByte pi ch = some pi') :
    PipeInv pi' (w ++ [ch]) r := by
  obtain ⟨h1, h2, h3, h4, h5, h6⟩ := hinv
  unfold pipeWriteByte at hstep
  by_cases hfull : pi.nwrite = pi.nread + PIPESIZE
  · simp [hfull] at hstep
  · simp only [hfull, if_false, Option.some.injEq] at hstep
    subst hstep
    refine ⟨h1, ?_, ?_, ?_, ?_, ?_⟩
    · simp [h2]
    · rw [h3]
      have hlen : r.length ≤ w.length := by omega
      have h7 : (List.take r.length w).length = r.length := by
        simp [List.length_take, Nat.min_eq_left hlen]
      rw [h7, List.take_append_of_le_length hlen]
    · simp only []
      omega
    · simp only []
      omega
    · intro k hk hk'
      simp only [] at hk hk' ⊢
      by_cases hke : k = pi.nwrite
      · subst hke
        rw [h2]
        simp [List.getD, List.getElem?_concat_length]
      · have hklt : k < pi.nwrite := by omega
        have hne : k % PIPESIZE ≠ pi.nwrite % PIPESIZE := by
          apply mod_add_of_lt_ne (by norm_num [PIPESIZE]) hklt
          omega
        simp only [hne, if_false]
        have := h6 k hk hklt
        rw [this]
        have hkw : k < w.length := by omega
        simp [List.getD, List.getElem?_append_left hkw]

theorem pipeInv_read {pi : Pipe} {w r : List Nat} {pi' : Pipe} {ch : Nat}
    (hinv : PipeInv pi w r) (hstep : pipeReadByte pi = some (pi', ch)) :
    PipeInv pi' w (r ++ [ch]) := by
  obtain ⟨h1, h2, h3, h4, h5, h6⟩ := hinv
  unfold pipeReadByte at hstep
  by_cases hemp : pi.nread = pi.nwrite
  · simp [hemp] at hstep
  · simp only [hemp, if_false, Option.some.injEq, Prod.mk.injEq] at hstep
    obtain ⟨hpi', hch⟩ := hstep
    subst hpi'
    have hlt : pi.nread < pi.nwrite := by omega
    have hchv : ch = w.getD pi.nread 0 := by
      rw [← hch]
      exact h6 pi.nread (le_refl _) hlt
    refine ⟨?_, h2, ?_, ?_, ?_, ?_⟩
    · simp [h1]
    · have hrw : r.length < w.length := by omega
      rw [List.length_append, List.length_singleton, List.take_succ]
      rw [← h3, hchv, h1]
      have : w[r.length]? = some (w.getD r.length 0) := by
        simp [List.getD, List.getElem?_eq_getElem hrw]
      rw [this]
      rfl
    · simp only []
      omega
    · simp only []
      omega
    · intro k hk hk'
      simp only [] at hk hk' ⊢
      exact h6 k (by omega) hk'

theorem runOps_inv (ops : List POp) : ∀ pi w r, PipeInv pi w r →
    PipeInv (runOps pi w r ops).1 (runOps pi w r ops).2.1
      (runOps pi w r ops).2.2 := by
  induction ops with
  | nil => intro pi w r h; exact h
  | cons op ops ih =>
    intro pi w r h
    cases op with
    | wr ch =>
      cases hstep : pipeWriteByte pi ch with
      | none => simpa [runOps, hstep] using ih pi w r h
      | some pi' =>
        simpa [runOps, hstep] using ih pi' (w ++ [ch]) r (pipeInv_write h hstep)
    | rd =>
      cases hstep : pipeReadByte pi with
      | none => simpa [runOps, hstep] using ih pi w r h
      | some pr =>
        obtain ⟨pi', ch⟩ := pr
        simpa [runOps, hstep] using
          ih pi' w (r ++ [ch]) (pipeInv_read h hstep)

theorem readLoop_drained {pi : Pipe} (n : Nat) (h : pi.nread = pi.nwrite) :
    readLoop pi n = (pi, []) := by
  cases n with
  | zero => rfl
  | succ k => simp [readLoop, pipeReadByte, h]

/-- C5: Pipe FIFO and end-of-file.  For every sequence of atomic pipe
byte events, the bytes delivered by `piperead` are, in order, a prefix
of the bytes accepted by `pipewrite` (byte `i` read is byte `i`
written, indices being the monotone counters); and when the write end
is closed (`writeopen == 0`) and `nread == nwrite`, `piperead` returns
0 bytes without blocking. -/
theorem pipe_fifo_and_eof (ops : List POp) (pi : Pipe) (n : Nat)
    (hclosed : pi.writeopen = false) (hdrained : pi.nread = pi.nwrite) :
    (runOps pipeInit [] [] ops).2.2 =
      (runOps pipeInit [] [] ops).2.1.take
        (runOps pipeInit [] [] ops).2.2.length ∧
    piperead pi n = some (pi, []) := by
  constructor
  · exact (runOps_inv ops pipeInit [] [] pipeInv_init).2.2.1
  · unfold piperead
    rw [readLoop_drained n hdrained]
    simp [hclosed]

theorem pipe_fifo_and_eof_witness :
    (runOps pipeInit [] [] [POp.wr 3, POp.wr 9, POp.rd]).2.2 =
      (runOps pipeInit [] [] [POp.wr 3, POp.wr 9, POp.rd]).2.1.take
        (runOps pipeInit [] [] [POp.wr 3, POp.wr 9, POp.rd]).2.2.length ∧
    piperead { pipeInit with writeopen := false } 4 =
      some ({ pipeInit with writeopen := false }, []) :=
  pipe_fifo_and_eof [POp.wr 3, POp.wr 9, POp.rd]
    { pipeInit with writeopen := false } 4 rfl rfl

/-- C10: Pipe ring invariant.  `nread ≤ nwrite ≤ nread + PIPESIZE`
holds initially and is preserved by every accepted write byte and every
delivered read byte; a write advances `nwrite` only when
`nwrite < nread + PIPESIZE`, and a read advances `nread` only when
`nread < nwrite`. -/
theorem pipe_ring_invariant (pi : Pipe) (ch : Nat)
    (h1 : pi.nread ≤ pi.nwrite) (h2 : pi.nwrite ≤ pi.nread + PIPESIZE) :
    (pipeInit.nread ≤ pipeInit.nwrite ∧
      pipeInit.nwrite ≤ pipeInit.nread + PIPESIZE) ∧
    (∀ pi', pipeWriteByte pi ch = some pi' →
      pi.nwrite < pi.nread + PIPESIZE ∧
      pi'.nwrite = pi.nwrite + 1 ∧ pi'.nread = pi.nread ∧
      pi'.nread ≤ pi'.nwrite ∧ pi'.nwrite ≤ pi'.nread + PIPESIZE) ∧
    (∀ pi' c, pipeReadByte pi = some (pi', c) →
      pi.nread < pi.nwrite ∧
      pi'.nread = pi.nread + 1 ∧ pi'.nwrite = pi.nwrite ∧
      pi'.nread ≤ pi'.nwrite ∧ pi'.nwrite ≤ pi'.nread + PIPESIZE) := by
  refine ⟨⟨le_refl _, by simp [pipeInit]⟩, ?_, ?_⟩
  · intro pi' hstep
    unfold pipeWriteByte at hstep
    by_cases hfull : pi.nwrite = pi.nread + PIPESIZE
    · simp [hfull] at hstep
    · simp only [hfull, if_false, Option.some.injEq] at hstep
      subst hstep
      refine ⟨by omega, rfl, rfl, ?_, ?_⟩ <;> simp only [] <;> omega
  · intro pi' c hstep
    unfold pipeReadByte at hstep
    by_cases hemp : pi.nread = pi.nwrite
    · simp [hemp] at hstep
    · simp only [hemp, if_false, Option.some.injEq, Prod.mk.injEq] at hstep
      obtain ⟨hpi', _⟩ := hstep
      subst hpi'
      refine ⟨by omega, rfl, rfl, ?_, ?_⟩ <;> simp only [] <;> omega

theorem pipe_ring_invariant_witness :
    (pipeInit.nread ≤ pipeInit.nwrite ∧
      pipeInit.nwrite ≤ pipeInit.nread + PIPESIZE) ∧
    (∀ pi', pipeWriteByte pipeInit 7 = some pi' →
      pipeInit.nwrite < pipeInit.nread + PIPESIZE ∧
      pi'.nwrite = pipeInit.nwrite + 1 ∧ pi'.nread = pipeInit.nread ∧
      pi'.nread ≤ pi'.nwrite ∧ pi'.nwrite ≤ pi'.nread + PIPESIZE) ∧
    (∀ pi' c, pipeReadByte pipeInit = some (pi', c) →
      pipeInit.nread < pipeInit.nwrite ∧
      pi'.nread = pipeInit.nread + 1 ∧ pi'.nwrite = pipeInit.nwrite ∧
      pi'.nread ≤ pi'.nwrite ∧ pi'.nwrite ≤ pi'.nread + PIPESIZE) :=
  pipe_ring_invariant pipeInit 7 (le_refl _) (by simp [pipeInit])

/-! ## Physical page allocator (src/unnamed/part_001, `kfree` / `kalloc`)

`kfree(pa)` panics when `pa` is unaligned, below the end of the kernel
image (`end`), or at or above `PHYSTOP`; otherwise it fills the page
with the byte 1, stores the old free-list head into the page's `run`
header, and pushes the page.  `kalloc` pops the head and fills the page
with the byte 5.  Memory is byte-addressed; the free list is kept both
as the ghost list `freelist` and through the in-page `next` words. -/

def PGSIZE : Nat := 4096

def KERNBASE : Nat := 0x80000000

def PHYSTOP : Nat := KERNBASE + 128 * 1024 * 1024

structure Kmem where
  mem : Nat → Nat
  freelist : List Nat
  kend : Nat

/-- `memset(pa, v, PGSIZE)`: fill one page with the byte `v`. -/
def memsetPage (m : Nat → Nat) (pa v : Nat) : Nat → Nat :=
  fun a => if pa ≤ a ∧ a < pa + PGSIZE then v else m a

/-- `r->next = kmem.freelist`: store the 8-byte pointer `ptr` (little
endian) at the start of the page. -/
def storeNext (m : Nat → Nat) (pa ptr : Nat) : Nat → Nat :=
  fun a => if pa ≤ a ∧ a < pa + 8 then ptr >>> (8 * (a - pa)) % 256 else m a

/-- `kfree(pa)`: `none` models the `panic("kfree")`; otherwise poison
the page with 1s, link it, and push it on the free list. -/
def kfree (st : Kmem) (pa : Nat) : Option Kmem :=
  if pa % PGSIZE ≠ 0 ∨ pa < st.kend ∨ PHYSTOP ≤ pa then none
  else
    some { st with
      mem := storeNext (memsetPage st.mem pa 1) pa (st.freelist.headD 0),
      freelist := pa :: st.freelist }

/-- `kalloc()`: pop the free-list head if any, and poison the returned
page with 5s. -/
def kalloc (st : Kmem) : Kmem × Option Nat :=
  match st.freelist with
  | [] => (st, none)
  | r :: rest =>
    ({ st with mem := memsetPage st.mem r 5, freelist := rest }, some r)

/-- C8: Allocator guard and poison.  `kfree(pa)` is a fatal fault
exactly when `pa` is not page aligned, lies below the end of the kernel
image, or is at or above `PHYSTOP`; for every other `pa` the whole page
is filled with the junk byte 1 (before the free-list link overwrites the
first 8 bytes with the `run` pointer) and the page is pushed on the free
list; and every page returned by `kalloc` is filled with the different
junk byte 5. -/
theorem kfree_kalloc_guard_poison (st : Kmem) (pa : Nat) :
    (kfree st pa = none ↔
      (pa % PGSIZE ≠ 0 ∨ pa < st.kend ∨ PHYSTOP ≤ pa)) ∧
    (∀ st', kfree st pa = some st' →
      st'.freelist = pa :: st.freelist ∧
      (∀ a, pa ≤ a → a < pa + PGSIZE → memsetPage st.mem pa 1 a = 1) ∧
      (∀ a, pa + 8 ≤ a → a < pa + PGSIZE → st'.mem a = 1)) ∧
    (∀ st' r, kalloc st = (st', some r) →
      ∀ a, r ≤ a → a < r + PGSIZE → st'.mem a = 5) := by
  refine ⟨?_, ?_, ?_⟩
  · unfold kfree
    by_cases hbad : pa % PGSIZE ≠ 0 ∨ pa < st.kend ∨ PHYSTOP ≤ pa
    · simp [hbad]
    · simp [hbad]
  · intro st' hok
    unfold kfree at hok
    by_cases hbad : pa % PGSIZE ≠ 0 ∨ pa < st.kend ∨ PHYSTOP ≤ pa
    · simp [hbad] at hok
    · simp only [hbad, if_false, Option.some.injEq] at hok
      subst hok
      refine ⟨rfl, ?_, ?_⟩
      · intro a ha1 ha2
        simp [memsetPage, ha1, ha2]
      · intro a ha1 ha2
        simp only [storeNext, memsetPage]
        have hnl : ¬(pa ≤ a ∧ a < pa + 8) := by omega
        simp only [hnl, if_false]
        have : pa ≤ a ∧ a < pa + PGSIZE := ⟨by omega, ha2⟩
        simp [this]
  · intro st' r hal a ha1 ha2
    unfold kalloc at hal
    cases hfl : st.freelist with
    | nil => simp [hfl] at hal
    | cons hd tl =>
      simp only [hfl, Prod.mk.injEq, Option.some.injEq] at hal
      obtain ⟨hst', hr⟩ := hal
      subst hst'
      subst hr
      simp [memsetPage, ha1, ha2]

/-! ## Inode content: `readi` / `writei` (src/kernel/fs.c)

Constants from the on-disk format header (`BSIZE`, `NDIRECT`,
`NINDIRECT`, `MAXFILE`).  Offsets and lengths are C `uint`s; the
overflow check `off + n < off` is modelled with an explicit `% 2^32`.
The copy loops are modelled at byte granularity over a byte-addressed
content function, advancing by the same per-block fragments
`m = min(n - tot, BSIZE - off % BSIZE)` as the C loops; `bmap`,
`either_copyin` and `either_copyout` are taken to succeed (their
failure paths depend on disk-full and page-table state outside this
model and are not part of claims C7/C9). -/

def BSIZE : Nat := 1024

def NDIRECT : Nat := 12

/-- `BSIZE / sizeof(uint)` = 256. -/
def NINDIRECT : Nat := BSIZE / 4

def MAXFILE : Nat := NDIRECT + NINDIRECT

def UINT : Nat := 2 ^ 32

structure InodeM where
  size : Nat
  data : Nat → Nat

/-- Copy `m` source bytes starting at `spos` into content at `off`. -/
def writeRange (d : Nat → Nat) (off : Nat) (src : Nat → Nat)
    (spos m : Nat) : Nat → Nat :=
  fun a => if off ≤ a ∧ a < off + m then src (spos + (a - off)) else d a

/-- The `for (tot = 0; tot < n; tot += m, off += m, src += m)` loop of
`writei`, copying per-block fragments.  Returns final content, final
`off` and final `tot`. -/
def wloop (src : Nat → Nat) (d : Nat → Nat) (off spos tot n : Nat) :
    (Nat → Nat) × Nat × Nat :=
  if tot < n then
    let m := min (n - tot) (BSIZE - off % BSIZE)
    wloop src (writeRange d off src spos m) (off + m) (spos + m) (tot + m) n
  else (d, off, tot)
termination_by n - tot
decreasing_by
  simp_wf
  have : off % BSIZE < BSIZE := Nat.mod_lt _ (by norm_num [BSIZE])
  omega

/-- The corresponding loop of `readi` (only the counters matter for the
return value). -/
def rloop (off tot n : Nat) : Nat × Nat :=
  if tot < n then
    let m := min (n - tot) (BSIZE - off % BSIZE)
    rloop (off + m) (tot + m) n
  else (off, tot)
termination_by n - tot
decreasing_by
  simp_wf
  have : off % BSIZE < BSIZE := Nat.mod_lt _ (by norm_num [BSIZE])
  omega

theorem wloop_counters (src : Nat → Nat) :
    ∀ fuel d off spos tot n, n - tot ≤ fuel → tot ≤ n →
    (wloop src d off spos tot n).2.2 = n ∧
    (wloop src d off spos tot n).2.1 = off + (n - tot) := by
  intro fuel
  induction fuel with
  | zero =>
    intro d off spos tot n hf ht
    have he : tot = n := by omega
    rw [wloop]
    simp [he]
  | succ k ih =>
    intro d off spos tot n hf ht
    by_cases hlt : tot < n
    · rw [wloop]
      simp only [hlt, if_true]
      have hm : off % BSIZE < BSIZE := Nat.mod_lt _ (by norm_num [BSIZE])
      have h1 : n - (tot + min (n - tot) (BSIZE - off % BSIZE)) ≤ k := by omega
      have h2 : tot + min (n - tot) (BSIZE - off % BSIZE) ≤ n := by omega
      obtain ⟨ha, hb⟩ := ih _ _ _ _ _ h1 h2
      refine ⟨ha, ?_⟩
      rw [hb]
      omega
    · rw [wloop]
      simp only [hlt, if_false]
      have he : tot = n := by omega
      simp [he]

theorem rloop_counters :
    ∀ fuel off tot n, n - tot ≤ fuel → tot ≤ n →
    (rloop off tot n).2 = n := by
  intro fuel
  induction fuel with
  | zero =>
    intro off tot n hf ht
    have he : tot = n := by omega
    rw [rloop]
    simp [he]
  | succ k ih =>
    intro off tot n hf ht
    by_cases hlt : tot < n
    · rw [rloop]
      simp only [hlt, if_true]
      have hm : off % BSIZE < BSIZE := Nat.mod_lt _ (by norm_num [BSIZE])
      have h1 : n - (tot + min (n - tot) (BSIZE - off % BSIZE)) ≤ k := by omega
      have h2 : tot + min (n - tot) (BSIZE - off % BSIZE) ≤ n := by omega
      exact ih _ _ _ h1 h2
    · rw [rloop]
      simp only [hlt, if_false]
      omega

/-- `readi(ip, user_dst, dst, off, n)`: return 0 on an out-of-range or
overflowing request, otherwise clamp `n` to `ip->size - off` and copy;
the return value is the byte count `tot`. -/
def readi (ip : InodeM) (off n : Nat) : Int :=
  if off > ip.size ∨ (off + n) % UINT < off then 0
  else
    let n' := if off + n > ip.size then ip.size - off else n
    ((rloop off 0 n').2 : Int)

/-- `writei(ip, user_src, src, off, n)`: return -1 (inode untouched, no
`iupdate`) on an out-of-range, overflowing, or too-large request;
otherwise copy, extend `ip->size` if the write went past the old end,
and call `iupdate` (the `Bool` component). -/
def writei (ip : InodeM) (src : Nat → Nat) (off n : Nat) :
    Int × InodeM × Bool :=
  if off > ip.size ∨ (off + n) % UINT < off then (-1, ip, false)
  else if off + n > MAXFILE * BSIZE then (-1, ip, false)
  else
    let r := wloop src ip.data off 0 0 n
    let sz := if r.2.1 > ip.size then r.2.1 else ip.size
    ((r.2.2 : Int), { size := sz, data := r.1 }, true)

theorem uint_overflow_iff (off n : Nat) (hoff : off < UINT) (hn : n < UINT) :
    ((off + n) % UINT < off) ↔ UINT ≤ off + n := by
  unfold UINT at *
  constructor
  · intro h
    by_contra hc
    rw [Nat.mod_eq_of_lt (by omega)] at h
    omega
  · intro h
    have : (off + n) % 2 ^ 32 = off + n - 2 ^ 32 := by
      rw [Nat.mod_eq_sub_mod h, Nat.mod_eq_of_lt (by omega)]
    omega

/-- C7: Maximum file size.  `writei` returns -1 and leaves the inode
unchanged (no `iupdate`) whenever `off > ip->size`, `off + n` overflows
a `uint`, or `off + n` exceeds `(NDIRECT + NINDIRECT) * BSIZE`
= 268 * 1024 bytes; a successful write of all `n` bytes past the old
end sets `ip->size` to the new end offset `off + n` and writes the
inode back with `iupdate`; hence a file whose size respects the bound
still respects it after any `writei`. -/
theorem writei_max_file_size (ip : InodeM) (src : Nat → Nat) (off n : Nat)
    (hoff : off < UINT) (hn : n < UINT) :
    ((off > ip.size ∨ UINT ≤ off + n ∨ off + n > MAXFILE * BSIZE) →
      writei ip src off n = (-1, ip, false)) ∧
    (off ≤ ip.size → off + n < UINT → off + n ≤ MAXFILE * BSIZE →
      (writei ip src off n).1 = (n : Int) ∧
      (writei ip src off n).2.1.size =
        (if ip.size < off + n then off + n else ip.size) ∧
      (writei ip src off n).2.2 = true) ∧
    (ip.size ≤ MAXFILE * BSIZE →
      (writei ip src off n).2.1.size ≤ MAXFILE * BSIZE) := by
  have hov := uint_overflow_iff off n hoff hn
  refine ⟨?_, ?_, ?_⟩
  · intro hbad
    unfold writei
    by_cases h1 : off > ip.size ∨ (off + n) % UINT < off
    · simp [h1]
    · have h2 : off + n > MAXFILE * BSIZE := by
        rcases hbad with h | h | h
        · exact absurd (Or.inl h) h1
        · exact absurd (Or.inr (hov.mpr h)) h1
        · exact h
      simp only [h1, if_false]
      simp [h2]
  · intro hle hnov hmax
    have h1 : ¬(off > ip.size ∨ (off + n) % UINT < off) := by
      push_neg
      refine ⟨by omega, ?_⟩
      rw [Nat.mod_eq_of_lt (by unfold UINT at *; omega)]
      omega
    have h2 : ¬(off + n > MAXFILE * BSIZE) := by omega
    have heq : writei ip src off n =
        (((wloop src ip.data off 0 0 n).2.2 : Int),
         { size := if (wloop src ip.data off 0 0 n).2.1 > ip.size
                   then (wloop src ip.data off 0 0 n).2.1 else ip.size,
           data := (wloop src ip.data off 0 0 n).1 }, true) := by
      unfold writei
      rw [if_neg h1, if_neg h2]
    obtain ⟨ha, hb⟩ := wloop_counters src n ip.data off 0 0 n (by omega) (by omega)
    rw [heq]
    simp only [ha, hb, Nat.sub_zero]
    simp
  · intro hsz
    by_cases h1 : off > ip.size ∨ (off + n) % UINT < off
    · have heq : writei ip src off n = (-1, ip, false) := by
        unfold writei
        rw [if_pos h1]
      rw [heq]
      exact hsz
    · by_cases h2 : off + n > MAXFILE * BSIZE
      · have heq : writei ip src off n = (-1, ip, false) := by
          unfold writei
          rw [if_neg h1, if_pos h2]
        rw [heq]
        exact hsz
      · have heq : writei ip src off n =
            (((wloop src ip.data off 0 0 n).2.2 : Int),
             { size := if (wloop src ip.data off 0 0 n).2.1 > ip.size
                       then (wloop src ip.data off 0 0 n).2.1 else ip.size,
               data := (wloop src ip.data off 0 0 n).1 }, true) := by
          unfold writei
          rw [if_neg h1, if_neg h2]
        obtain ⟨ha, hb⟩ := wloop_counters src n ip.data off 0 0 n
          (by omega) (by omega)
        rw [heq]
        simp only [hb, Nat.sub_zero]
        split_ifs with hg
        · omega
        · omega

theorem writei_max_file_size_witness :
    ((2000 > (InodeM.mk 1000 fun _ => 0).size ∨
      UINT ≤ 2000 + 50 ∨ 2000 + 50 > MAXFILE * BSIZE) →
      writei (InodeM.mk 1000 fun _ => 0) (fun _ => 3) 2000 50 =
        (-1, InodeM.mk 1000 fun _ => 0, false)) ∧
    (2000 ≤ (InodeM.mk 1000 fun _ => 0).size → 2000 + 50 < UINT →
      2000 + 50 ≤ MAXFILE * BSIZE →
      (writei (InodeM.mk 1000 fun _ => 0) (fun _ => 3) 2000 50).1 = (50 : Int) ∧
      (writei (InodeM.mk 1000 fun _ => 0) (fun _ => 3) 2000 50).2.1.size =
        (if (InodeM.mk 1000 fun _ => 0).size < 2000 + 50 then 2000 + 50
         else (InodeM.mk 1000 fun _ => 0).size) ∧
      (writei (InodeM.mk 1000 fun _ => 0) (fun _ => 3) 2000 50).2.2 = true) ∧
    ((InodeM.mk 1000 fun _ => 0).size ≤ MAXFILE * BSIZE →
      (writei (InodeM.mk 1000 fun _ => 0) (fun _ => 3) 2000 50).2.1.size ≤
        MAXFILE * BSIZE) :=
  writei_max_file_size (InodeM.mk 1000 fun _ => 0) (fun _ => 3) 2000 50
    (by norm_num [UINT]) (by norm_num [UINT])

/-- C9: Read/write error asymmetry.  Under the same out-of-range
precondition (`off > ip->size`, or `off + n` overflowing a `uint`),
`readi` returns 0 (a successful zero-byte read) while `writei` returns
-1; and in range, `readi` silently clamps `n` to `ip->size - off`, so
reading past end-of-file never yields a negative return. -/
theorem readi_writei_asymmetry (ip : InodeM) (src : Nat → Nat) (off n : Nat)
    (hoff : off < UINT) (hn : n < UINT) :
    ((off > ip.size ∨ UINT ≤ off + n) →
      readi ip off n = 0 ∧ (writei ip src off n).1 = -1) ∧
    (off ≤ ip.size → off + n < UINT →
      readi ip off n = ((min n (ip.size - off) : Nat) : Int)) ∧
    0 ≤ readi ip off n := by
  have hov := uint_overflow_iff off n hoff hn
  refine ⟨?_, ?_, ?_⟩
  · intro hbad
    have h1 : off > ip.size ∨ (off + n) % UINT < off := by
      rcases hbad with h | h
      · exact Or.inl h
      · exact Or.inr (hov.mpr h)
    constructor
    · unfold readi
      simp [h1]
    · unfold writei
      simp [h1]
  · intro hle hnov
    have h1 : ¬(off > ip.size ∨ (off + n) % UINT < off) := by
      push_neg
      refine ⟨by omega, ?_⟩
      rw [Nat.mod_eq_of_lt (by unfold UINT at *; omega)]
      omega
    unfold readi
    simp only [h1, if_false]
    by_cases hclamp : off + n > ip.size
    · simp only [hclamp, if_true]
      rw [rloop_counters (ip.size - off) off 0 (ip.size - off) (by omega) (by omega)]
      have : min n (ip.size - off) = ip.size - off := by omega
      rw [this]
    · simp only [hclamp, if_false]
      rw [rloop_counters n off 0 n (by omega) (by omega)]
      have : min n (ip.size - off) = n := by omega
      rw [this]
  · unfold readi
    by_cases h1 : off > ip.size ∨ (off + n) % UINT < off
    · simp [h1]
    · simp only [h1, if_false]
      exact Int.natCast_nonneg _

theorem readi_writei_asymmetry_witness :
    ((500 > (InodeM.mk 100 fun _ => 0).size ∨ UINT ≤ 500 + 7) →
      readi (InodeM.mk 100 fun _ => 0) 500 7 = 0 ∧
      (writei (InodeM.mk 100 fun _ => 0) (fun _ => 2) 500 7).1 = -1) ∧
    (500 ≤ (InodeM.mk 100 fun _ => 0).size → 500 + 7 < UINT →
      readi (InodeM.mk 100 fun _ => 0) 500 7 =
        ((min 7 ((InodeM.mk 100 fun _ => 0).size - 500) : Nat) : Int)) ∧
    0 ≤ readi (InodeM.mk 100 fun _ => 0) 500 7 :=
  readi_writei_asymmetry (InodeM.mk 100 fun _ => 0) (fun _ => 2) 500 7
    (by norm_num [UINT]) (by norm_num [UINT])

/-! ## Write-ahead log: `log_write` (src/unnamed/part_003)

The in-memory header `log.lh` holds the count `n` and the array
`block[LOGSIZE]`; the valid portion (`block[0..n)`) is modelled as the
list `blocks`.  Buffer pinning (`bpin`, a reference-count bump keyed by
block number) is the map `pins`.  `log_write` panics (`none`) when the
log is full or no FS call is outstanding; otherwise it absorbs a
duplicate block number or appends a new one and pins its buffer.
`LOGSIZE` and `log.size` are parameters (param.h is not part of the
sources; only their role as bounds matters). -/

structure LogSt where
  blocks : List Nat
  pins : Nat → Nat

/-- `log_write(b)` for a buffer with block number `bno`, given the
bounds `LOGSIZE` and `log.size` and the current `log.outstanding`. -/
def log_write (LOGSIZE logsize outstanding : Nat) (st : LogSt)
    (bno : Nat) : Option LogSt :=
  if LOGSIZE ≤ st.blocks.length ∨ logsize - 1 ≤ st.blocks.length then none
  else if outstanding < 1 then none
  else if bno ∈ st.blocks then some st
  else some { blocks := st.blocks ++ [bno],
              pins := fun b => if b = bno then st.pins b + 1 else st.pins b }

/-- C2: Log absorption.  When `log_write` does not panic: for a buffer
whose block number already appears in the in-memory header it leaves
the header (hence `lh.n`) and the pin state unchanged; for a new block
it appends it (incrementing `lh.n` by exactly one) and pins the buffer;
and a second `log_write` of the same block that does not panic leaves
the header count unchanged, so one transaction consumes exactly one
slot per block. -/
theorem log_write_absorption (LOGSIZE logsize outstanding : Nat)
    (st : LogSt) (bno : Nat)
    (hfull : st.blocks.length < LOGSIZE ∧ st.blocks.length < logsize - 1)
    (hout : 1 ≤ outstanding) :
    (bno ∈ st.blocks → log_write LOGSIZE logsize outstanding st bno = some st) ∧
    (bno ∉ st.blocks → log_write LOGSIZE logsize outstanding st bno =
      some { blocks := st.blocks ++ [bno],
             pins := fun b => if b = bno then st.pins b + 1 else st.pins b }) ∧
    (∀ st', log_write LOGSIZE logsize outstanding st bno = some st' →
      st'.blocks.length ≤ st.blocks.length + 1 ∧ bno ∈ st'.blocks ∧
      ∀ st'', log_write LOGSIZE logsize outstanding st' bno = some st'' →
        st'' = st' ∧ st''.blocks.length = st'.blocks.length) := by
  have hg1 : ¬(LOGSIZE ≤ st.blocks.length ∨ logsize - 1 ≤ st.blocks.length) := by
    omega
  have hg2 : ¬(outstanding < 1) := by omega
  refine ⟨?_, ?_, ?_⟩
  · intro hmem
    unfold log_write
    rw [if_neg hg1, if_neg hg2, if_pos hmem]
  · intro hmem
    unfold log_write
    rw [if_neg hg1, if_neg hg2, if_neg hmem]
  · intro st' hok
    unfold log_write at hok
    rw [if_neg hg1, if_neg hg2] at hok
    by_cases hmem : bno ∈ st.blocks
    · rw [if_pos hmem, Option.some.injEq] at hok
      subst hok
      refine ⟨by omega, hmem, ?_⟩
      intro st'' hok2
      unfold log_write at hok2
      rw [if_neg hg1, if_neg hg2, if_pos hmem, Option.some.injEq] at hok2
      exact ⟨hok2.symm, by rw [hok2]⟩
    · rw [if_neg hmem, Option.some.injEq] at hok
      subst hok
      have hmem' : bno ∈ st.blocks ++ [bno] := by simp
      refine ⟨by simp, hmem', ?_⟩
      intro st'' hok2
      unfold log_write at hok2
      by_cases hg1' : LOGSIZE ≤ (st.blocks ++ [bno]).length ∨
          logsize - 1 ≤ (st.blocks ++ [bno]).length
      · rw [if_pos hg1'] at hok2
        exact absurd hok2 (by simp)
      · rw [if_neg hg1', if_neg hg2, if_pos hmem', Option.some.injEq] at hok2
        exact ⟨hok2.symm, by rw [hok2]⟩

theorem log_write_absorption_witness :
    ((4 : Nat) ∈ [4, 9] →
      log_write 30 31 1 (LogSt.mk [4, 9] fun _ => 0) 4 =
        some (LogSt.mk [4, 9] fun _ => 0)) ∧
    ((4 : Nat) ∉ [4, 9] →
      log_write 30 31 1 (LogSt.mk [4, 9] fun _ => 0) 4 =
        some { blocks := [4, 9] ++ [4],
               pins := fun b => if b = 4
                 then (LogSt.mk [4, 9] fun _ => 0).pins b + 1
                 else (LogSt.mk [4, 9] fun _ => 0).pins b }) ∧
    (∀ st', log_write 30 31 1 (LogSt.mk [4, 9] fun _ => 0) 4 = some st' →
      st'.blocks.length ≤ (LogSt.mk [4, 9] fun _ => 0).blocks.length + 1 ∧
      (4 : Nat) ∈ st'.blocks ∧
      ∀ st'', log_write 30 31 1 st' 4 = some st'' →
        st'' = st' ∧ st''.blocks.length = st'.blocks.length) :=
  log_write_absorption 30 31 1 (LogSt.mk [4, 9] fun _ => 0) 4
    (by constructor <;> norm_num) (by norm_num)

/-! ## Directories: `dirlookup` / `dirlink` (src/kernel/fs.c)

A directory's content is its list of 16-byte entries (`struct dirent`:
a `ushort` inum and 14 name bytes); `readi`/`writei` of aligned
16-byte records in a directory are exactly list indexing, so the
directory is modelled as `List Dirent`.  Names are byte lists; the
stored name is produced by `strncpy(de.name, name, DIRSIZ)` and
compared by `strncmp(name, de.name, DIRSIZ)`.  `strncpy`/`strncmp`
live in the kernel's string.c, which is not among the sources;
modelled from the spec: `dirlookup` compares up to `DIRSIZ = 14`
bytes, the stored name is zero-padded and not necessarily
null-terminated (standard C `strncpy`/`strncmp` semantics, which the
spec's directory-entry description assumes). -/

def DIRSIZ : Nat := 14

/-- Byte `i` of a NUL-terminated C string given as its byte list
(bytes past the end read as 0). -/
def cbyte (s : List Nat) (i : Nat) : Nat := s.getD i 0

/-- Modelled from the spec: C `strncpy(dst, t, fuel)` into a fresh
buffer — copy bytes of `t` up to its terminator, then pad with zeros,
producing exactly `fuel` bytes (truncating without a terminator when
`t` is long). -/
def strncpyList : List Nat → Nat → List Nat
  | _, 0 => []
  | [], Nat.succ k => 0 :: List.replicate k 0
  | c :: t, Nat.succ k =>
    if c = 0 then 0 :: List.replicate k 0 else c :: strncpyList t k

/-- `strncpy(de.name, name, DIRSIZ)`. -/
def strncpy14 (t : List Nat) : List Nat := strncpyList t DIRSIZ

/-- Modelled from the spec: C `strncmp(p, q, n)` — compare while bytes
are equal and nonzero, up to `n` bytes. -/
def strncmp (p q : Nat → Nat) : Nat → Int
  | 0 => 0
  | Nat.succ k =>
    if p 0 = 0 ∨ p 0 ≠ q 0 then (p 0 : Int) - (q 0 : Int)
    else strncmp (fun i => p (i + 1)) (fun i => q (i + 1)) k

/-- `namecmp(s, t) = strncmp(s, t, DIRSIZ)` with `s` a query string and
`t` a stored 14-byte name. -/
def namecmp (s t : List Nat) : Int := strncmp (cbyte s) (cbyte t) DIRSIZ

structure Dirent where
  inum : Nat
  name : List Nat

/-- `dirlookup(dp, name, 0)`: scan the entries in order, skip empty
slots (`inum == 0`), return the inum of the first name match. -/
def dirlookup : List Dirent → List Nat → Option Nat
  | [], _ => none
  | de :: rest, nm =>
    if de.inum = 0 then dirlookup rest nm
    else if namecmp nm de.name = 0 then some de.inum
    else dirlookup rest nm

/-- The slot search and `writei` of `dirlink`: overwrite the first
entry with `inum == 0`, or append at `dp->size`. -/
def putEmptySlot : List Dirent → Dirent → List Dirent
  | [], de => [de]
  | d :: rest, de =>
    if d.inum = 0 then de :: rest else d :: putEmptySlot rest de

/-- `dirlink(dp, name, inum)`: refuse a duplicate name (`none` models
the -1 return, directory unchanged), otherwise store
`(inum, strncpy(name))` in the first empty slot or append it.  The
`ushort` field truncates `inum` to 16 bits. -/
def dirlink (dir : List Dirent) (nm : List Nat) (inum : Nat) :
    Option (List Dirent) :=
  if (dirlookup dir nm).isSome then none
  else some (putEmptySlot dir (Dirent.mk (inum % 65536) (strncpy14 nm)))

theorem cbyte_cons_shift (c : Nat) (t : List Nat) :
    (fun i => cbyte (c :: t) (i + 1)) = cbyte t := by
  funext i
  simp [cbyte]

theorem strncmp_self_strncpy :
    ∀ (fuel : Nat) (s : List Nat), (∀ b ∈ s, b ≠ 0) →
    strncmp (cbyte s) (cbyte (strncpyList s fuel)) fuel = 0 := by
  intro fuel
  induction fuel with
  | zero => intro s _; rfl
  | succ k ih =>
    intro s hs
    cases s with
    | nil =>
      unfold strncmp
      simp [strncpyList, cbyte]
    | cons c t =>
      have hc : c ≠ 0 := hs c (by simp)
      unfold strncmp
      have hcp : cbyte (c :: t) 0 = c := by simp [cbyte]
      have hst : strncpyList (c :: t) (Nat.succ k) = c :: strncpyList t k := by
        simp [strncpyList, hc]
      rw [hst]
      have hcq : cbyte (c :: strncpyList t k) 0 = c := by simp [cbyte]
      rw [hcp, hcq]
      simp only [hc, ne_eq, not_true_eq_false, or_false, if_false]
      rw [cbyte_cons_shift, cbyte_cons_shift]
      exact ih t (fun b hb => hs b (by simp [hb]))

theorem namecmp_strncpy14 (nm : List Nat) (hnm : ∀ b ∈ nm, b ≠ 0) :
    namecmp nm (strncpy14 nm) = 0 :=
  strncmp_self_strncpy DIRSIZ nm hnm

theorem dirlookup_putEmptySlot (dir : List Dirent) (nm : List Nat)
    (de : Dirent) (hno : dirlookup dir nm = none)
    (hmatch : namecmp nm de.name = 0) (hnz : de.inum ≠ 0) :
    dirlookup (putEmptySlot dir de) nm = some de.inum := by
  induction dir with
  | nil => simp [putEmptySlot, dirlookup, hnz, hmatch]
  | cons d rest ih =>
    unfold dirlookup at hno
    by_cases hd0 : d.inum = 0
    · rw [if_pos hd0] at hno
      unfold putEmptySlot
      rw [if_pos hd0]
      unfold dirlookup
      rw [if_neg hnz, if_pos hmatch]
    · rw [if_neg hd0] at hno
      by_cases hdm : namecmp nm d.name = 0
      · rw [if_pos hdm] at hno
        exact absurd hno (by simp)
      · rw [if_neg hdm] at hno
        unfold putEmptySlot
        rw [if_neg hd0]
        unfold dirlookup
        rw [if_neg hd0, if_neg hdm]
        exact ih hno

/-- C6: Directory link/lookup round trip.  `dirlink(dp, name, inum)`
returns -1 and leaves the directory unchanged when an entry with that
name already exists; otherwise it stores the new entry in the first
slot whose `inum` field is 0 (or appends at `dp->size`), and a
subsequent `dirlookup(dp, name)` returns inode number `inum` (for a
name without embedded NULs and a valid nonzero 16-bit inum). -/
theorem dirlink_dirlookup_roundtrip (dir : List Dirent) (nm : List Nat)
    (inum : Nat) (hnm : ∀ b ∈ nm, b ≠ 0) (hz : inum ≠ 0)
    (hlt : inum < 65536) :
    ((dirlookup dir nm).isSome → dirlink dir nm inum = none) ∧
    (dirlookup dir nm = none →
      dirlink dir nm inum =
        some (putEmptySlot dir (Dirent.mk inum (strncpy14 nm))) ∧
      ∀ dir', dirlink dir nm inum = some dir' →
        dirlookup dir' nm = some inum) := by
  have hmod : inum % 65536 = inum := Nat.mod_eq_of_lt hlt
  constructor
  · intro hdup
    unfold dirlink
    rw [if_pos hdup]
  · intro hno
    have hnos : ¬(dirlookup dir nm).isSome := by simp [hno]
    constructor
    · unfold dirlink
      rw [if_neg hnos, hmod]
    · intro dir' hlink
      unfold dirlink at hlink
      rw [if_neg hnos, Option.some.injEq] at hlink
      subst hlink
      have := dirlookup_putEmptySlot dir nm
        (Dirent.mk (inum % 65536) (strncpy14 nm)) hno
        (namecmp_strncpy14 nm hnm) (by simp [hmod, hz])
      rw [this]
      simp [hmod]

theorem dirlink_dirlookup_roundtrip_witness :
    ((dirlookup [Dirent.mk 3 (strncpy14 [102, 111, 111])] [98, 97, 114]).isSome →
      dirlink [Dirent.mk 3 (strncpy14 [102, 111, 111])] [98, 97, 114] 9 = none) ∧
    (dirlookup [Dirent.mk 3 (strncpy14 [102, 111, 111])] [98, 97, 114] = none →
      dirlink [Dirent.mk 3 (strncpy14 [102, 111, 111])] [98, 97, 114] 9 =
        some (putEmptySlot [Dirent.mk 3 (strncpy14 [102, 111, 111])]
          (Dirent.mk 9 (strncpy14 [98, 97, 114]))) ∧
      ∀ dir', dirlink [Dirent.mk 3 (strncpy14 [102, 111, 111])]
          [98, 97, 114] 9 = some dir' →
        dirlookup dir' [98, 97, 114] = some 9) :=
  dirlink_dirlookup_roundtrip [Dirent.mk 3 (strncpy14 [102, 111, 111])]
    [98, 97, 114] 9 (by decide) (by decide) (by decide)

/-! ## Process layer: `fork` (src/unnamed/part_000)

The per-process state visible to `fork`: pid, user size `sz`, user
memory contents (byte-addressed), trap frame (register `a0` singled
out, `epc`/`sp` and the remaining registers abstracted), the open-file
table (a map from descriptor to file reference; `filedup` duplicates
the reference, i.e. the child gets the same file object), and the cwd.
`uvmcopy` copies whole pages for virtual addresses below
`PGROUNDUP(sz)`; `allocproc` failure (no slot / no page) and `uvmcopy`
failure are the `allocOk` / `copyOk` oracles, on which `fork` returns
-1 with no child (`none`).  `allocpid` hands out `nextpid` (which
starts at 1 and only increments, hence the hypothesis `1 ≤ nextpid`). -/

def PGROUNDUP (a : Nat) : Nat := ((a + PGSIZE - 1) / PGSIZE) * PGSIZE

structure Trapframe where
  epc : Nat
  sp : Nat
  a0 : Nat
  regs : Nat → Nat

structure ProcST where
  pid : Nat
  sz : Nat
  mem : Nat → Nat
  tf : Trapframe
  ofile : Nat → Option Nat
  cwd : Nat

/-- `fork()`: allocate a child, deep-copy the parent's user pages,
copy the trap frame forcing `a0 := 0` in the child, duplicate the
open-file references and the cwd, and return the child's pid. -/
def fork (p : ProcST) (nextpid : Nat) (allocOk copyOk : Bool) :
    Option (ProcST × Int) :=
  if allocOk = false then none
  else if copyOk = false then none
  else
    some ({ pid := nextpid,
            sz := p.sz,
            mem := fun a => if a < PGROUNDUP p.sz then p.mem a else 0,
            tf := { epc := p.tf.epc, sp := p.tf.sp, a0 := 0,
                    regs := p.tf.regs },
            ofile := p.ofile,
            cwd := p.cwd }, (nextpid : Int))

/-- C3: For every `fork()` call that succeeds, the returned pid is
positive and equals the child's pid (the parent's return value), the
child's trap frame has `a0 = 0`, the child's address space agrees with
the parent's on all `sz` bytes (a deep copy), its open-file table
duplicates the parent's references, and its trap frame otherwise
equals the parent's. -/
theorem fork_success_props (p : ProcST) (nextpid : Nat)
    (allocOk copyOk : Bool) (np : ProcST) (r : Int)
    (hpid : 1 ≤ nextpid)
    (hs : fork p nextpid allocOk copyOk = some (np, r)) :
    0 < r ∧ r = (np.pid : Int) ∧ np.tf.a0 = 0 ∧ np.sz = p.sz ∧
    (∀ a, a < p.sz → np.mem a = p.mem a) ∧ np.ofile = p.ofile ∧
    np.cwd = p.cwd ∧ np.tf.epc = p.tf.epc ∧ np.tf.sp = p.tf.sp ∧
    np.tf.regs = p.tf.regs := by
  unfold fork at hs
  by_cases ha : allocOk = false
  · rw [if_pos ha] at hs
    exact absurd hs (by simp)
  · rw [if_neg ha] at hs
    by_cases hc : copyOk = false
    · rw [if_pos hc] at hs
      exact absurd hs (by simp)
    · rw [if_neg hc, Option.some.injEq, Prod.mk.injEq] at hs
      obtain ⟨hnp, hr⟩ := hs
      subst hnp
      subst hr
      have hup : p.sz ≤ PGROUNDUP p.sz := by
        unfold PGROUNDUP PGSIZE
        omega
      refine ⟨by exact_mod_cast hpid, rfl, rfl, rfl, ?_, rfl, rfl, rfl, rfl, rfl⟩
      intro a hlt
      simp only []
      rw [if_pos (by omega)]

/-- The concrete parent used in the `fork` witness. -/
def forkWitnessParent : ProcST :=
  ProcST.mk 1 5 (fun a => a + 10) (Trapframe.mk 7 8 9 fun i => i)
    (fun _ => none) 3

/-- The concrete child that `fork forkWitnessParent 2 true true`
produces. -/
def forkWitnessChild : ProcST :=
  ProcST.mk 2 5
    (fun a => if a < PGROUNDUP 5 then a + 10 else 0)
    (Trapframe.mk 7 8 0 fun i => i) (fun _ => none) 3

theorem fork_success_props_witness :
    0 < (2 : Int) ∧ (2 : Int) = (forkWitnessChild.pid : Int) ∧
    forkWitnessChild.tf.a0 = 0 ∧
    forkWitnessChild.sz = forkWitnessParent.sz ∧
    (∀ a, a < forkWitnessParent.sz →
      forkWitnessChild.mem a = forkWitnessParent.mem a) ∧
    forkWitnessChild.ofile = forkWitnessParent.ofile ∧
    forkWitnessChild.cwd = forkWitnessParent.cwd ∧
    forkWitnessChild.tf.epc = forkWitnessParent.tf.epc ∧
    forkWitnessChild.tf.sp = forkWitnessParent.tf.sp ∧
    forkWitnessChild.tf.regs = forkWitnessParent.tf.regs :=
  fork_success_props forkWitnessParent 2 true true forkWitnessChild 2
    (by norm_num) rfl

/-! ## Process layer: `wait` (src/unnamed/part_000)

`wait(addr)` scans the process table under `wait_lock`.  For each
entry whose `parent` is the caller it sets `havekids`; the first such
entry in `ZOMBIE` state is reaped: its `xstate` is copied out to user
address `addr` when `addr != 0` (return -1 if `copyout` fails, table
unchanged), the slot is freed (`freeproc`), and its pid is returned.
If the scan finds no zombie, the call returns -1 when `havekids` is
false **or the caller is killed**, and otherwise sleeps and rescans.
One scan (the body of the `for (;;)` loop) is modelled; `sleepW` marks
the blocking continuation. -/

inductive PState where
  | UNUSED : PState
  | USED : PState
  | SLEEPING : PState
  | RUNNABLE : PState
  | RUNNING : PState
  | ZOMBIE : PState
deriving DecidableEq

structure WProc where
  parent : Nat
  state : PState
  pid : Nat
  xstate : Int
deriving DecidableEq

/-- The fields `freeproc` resets on a reaped child
(`parent = 0`, `state = UNUSED`, `pid = 0`, `xstate = 0`). -/
def freedSlot : WProc := WProc.mk 0 PState.UNUSED 0 0

inductive WaitRes where
  | ret (v : Int) (copied : Option Int) (t : List WProc) : WaitRes
  | sleepW (t : List WProc) : WaitRes
deriving DecidableEq

/-- One scan of `wait`'s process-table loop; `hk` is the running
`havekids` flag, `copyOk` the outcome of the `copyout` of `xstate`,
`selfKilled` the caller's `killed` flag checked after the scan. -/
def waitScanAux (self addr : Nat) (copyOk selfKilled : Bool) :
    List WProc → Bool → WaitRes
  | [], hk =>
    if hk = false ∨ selfKilled = true then WaitRes.ret (-1) none []
    else WaitRes.sleepW []
  | pp :: rest, hk =>
    if pp.parent = self then
      if pp.state = PState.ZOMBIE then
        if addr ≠ 0 ∧ copyOk = false then
          WaitRes.ret (-1) none (pp :: rest)
        else
          WaitRes.ret (pp.pid : Int)
            (if addr = 0 then none else some pp.xstate)
            (freedSlot :: rest)
      else
        match waitScanAux self addr copyOk selfKilled rest true with
        | WaitRes.ret v c t => WaitRes.ret v c (pp :: t)
        | WaitRes.sleepW t => WaitRes.sleepW (pp :: t)
    else
      match waitScanAux self addr copyOk selfKilled rest hk with
      | WaitRes.ret v c t => WaitRes.ret v c (pp :: t)
      | WaitRes.sleepW t => WaitRes.sleepW (pp :: t)

/-- One iteration of `wait(addr)`'s outer loop, entered with
`havekids = 0`. -/
def waitOnce (self addr : Nat) (copyOk selfKilled : Bool)
    (t : List WProc) : WaitRes :=
  waitScanAux self addr copyOk selfKilled t false

theorem waitScanAux_err (self addr : Nat) (copyOk selfKilled : Bool) :
    ∀ (t : List WProc) (hk : Bool),
    (∀ pp ∈ t, pp.parent = self → pp.state ≠ PState.ZOMBIE) →
    ((hk = false ∧ ∀ pp ∈ t, pp.parent ≠ self) ∨ selfKilled = true) →
    waitScanAux self addr copyOk selfKilled t hk =
      WaitRes.ret (-1) none t := by
  intro t
  induction t with
  | nil =>
    intro hk _ hcond
    unfold waitScanAux
    rcases hcond with ⟨hhk, _⟩ | hkill
    · rw [if_pos (Or.inl hhk)]
    · rw [if_pos (Or.inr hkill)]
  | cons pp rest ih =>
    intro hk hnz hcond
    unfold waitScanAux
    by_cases hpar : pp.parent = self
    · rw [if_pos hpar]
      have hzs : pp.state ≠ PState.ZOMBIE := hnz pp (by simp) hpar
      rw [if_neg hzs]
      have hkill : selfKilled = true := by
        rcases hcond with ⟨_, hnp⟩ | hkill
        · exact absurd hpar (hnp pp (by simp))
        · exact hkill
      have := ih true (fun q hq => hnz q (by simp [hq])) (Or.inr hkill)
      rw [this]
    · rw [if_neg hpar]
      have hcond' : (hk = false ∧ ∀ q ∈ rest, q.parent ≠ self) ∨
          selfKilled = true := by
        rcases hcond with ⟨hhk, hnp⟩ | hkill
        · exact Or.inl ⟨hhk, fun q hq => hnp q (by simp [hq])⟩
        · exact Or.inr hkill
      have := ih hk (fun q hq => hnz q (by simp [hq])) hcond'
      rw [this]

theorem waitScanAux_zombie (self addr : Nat) (copyOk selfKilled : Bool)
    (pp : WProc) (post : List WProc) (hpar : pp.parent = self)
    (hz : pp.state = PState.ZOMBIE) :
    ∀ (pre : List WProc) (hk : Bool),
    (∀ q ∈ pre, q.parent = self → q.state ≠ PState.ZOMBIE) →
    ((addr ≠ 0 ∧ copyOk = false →
      waitScanAux self addr copyOk selfKilled (pre ++ pp :: post) hk =
        WaitRes.ret (-1) none (pre ++ pp :: post)) ∧
     (addr = 0 ∨ copyOk = true →
      waitScanAux self addr copyOk selfKilled (pre ++ pp :: post) hk =
        WaitRes.ret (pp.pid : Int)
          (if addr = 0 then none else some pp.xstate)
          (pre ++ freedSlot :: post))) := by
  intro pre
  induction pre with
  | nil =>
    intro hk _
    constructor
    · intro hfail
      simp only [List.nil_append]
      unfold waitScanAux
      rw [if_pos hpar, if_pos hz, if_pos hfail]
    · intro hok
      have hnf : ¬(addr ≠ 0 ∧ copyOk = false) := by
        rcases hok with h | h
        · intro hc; exact hc.1 h
        · intro hc; rw [h] at hc; exact absurd hc.2 (by simp)
      simp only [List.nil_append]
      unfold waitScanAux
      rw [if_pos hpar, if_pos hz, if_neg hnf]
  | cons q pre' ih =>
    intro hk hq
    have hqn : q.parent = self → q.state ≠ PState.ZOMBIE :=
      hq q (by simp)
    have hq' : ∀ x ∈ pre', x.parent = self → x.state ≠ PState.ZOMBIE :=
      fun x hx => hq x (by simp [hx])
    constructor
    · intro hfail
      simp only [List.cons_append]
      unfold waitScanAux
      by_cases hqp : q.parent = self
      · rw [if_pos hqp, if_neg (hqn hqp)]
        rw [(ih true hq').1 hfail]
      · rw [if_neg hqp]
        rw [(ih hk hq').1 hfail]
    · intro hok
      simp only [List.cons_append]
      unfold waitScanAux
      by_cases hqp : q.parent = self
      · rw [if_pos hqp, if_neg (hqn hqp)]
        rw [(ih true hq').2 hok]
      · rw [if_neg hqp]
        rw [(ih hk hq').2 hok]

theorem waitScanAux_ret_neg_inv (self addr : Nat)
    (copyOk selfKilled : Bool) :
    ∀ (t : List WProc) (hk : Bool) (c : Option Int) (t' : List WProc),
    waitScanAux self addr copyOk selfKilled t hk =
      WaitRes.ret (-1) c t' →
    c = none ∧ t' = t ∧
    (((∀ pp ∈ t, pp.parent = self → pp.state ≠ PState.ZOMBIE) ∧
      ((hk = false ∧ ∀ pp ∈ t, pp.parent ≠ self) ∨ selfKilled = true)) ∨
     (∃ pre pp post, t = pre ++ pp :: post ∧ pp.parent = self ∧
       pp.state = PState.ZOMBIE ∧
       (∀ q ∈ pre, q.parent = self → q.state ≠ PState.ZOMBIE) ∧
       addr ≠ 0 ∧ copyOk = false)) := by
  intro t
  induction t with
  | nil =>
    intro hk c t' heq
    unfold waitScanAux at heq
    by_cases hcond : hk = false ∨ selfKilled = true
    · rw [if_pos hcond] at heq
      obtain ⟨_, hc, ht⟩ := WaitRes.ret.inj heq
      refine ⟨hc.symm, ht.symm, Or.inl ⟨by simp, ?_⟩⟩
      rcases hcond with h | h
      · exact Or.inl ⟨h, by simp⟩
      · exact Or.inr h
    · rw [if_neg hcond] at heq
      exact absurd heq (by simp)
  | cons pp rest ih =>
    intro hk c t' heq
    unfold waitScanAux at heq
    by_cases hpar : pp.parent = self
    · rw [if_pos hpar] at heq
      by_cases hz : pp.state = PState.ZOMBIE
      · rw [if_pos hz] at heq
        by_cases hfail : addr ≠ 0 ∧ copyOk = false
        · rw [if_pos hfail] at heq
          obtain ⟨_, hc, ht⟩ := WaitRes.ret.inj heq
          exact ⟨hc.symm, ht.symm,
            Or.inr ⟨[], pp, rest, by simp, hpar, hz, by simp,
              hfail.1, hfail.2⟩⟩
        · rw [if_neg hfail] at heq
          obtain ⟨hv, _, _⟩ := WaitRes.ret.inj heq
          exact absurd hv.symm (by
            intro hcontra
            have : (0 : Int) ≤ (pp.pid : Int) := Int.natCast_nonneg _
            omega)
      · rw [if_neg hz] at heq
        cases hrec : waitScanAux self addr copyOk selfKilled rest true with
        | ret v c2 t2 =>
          rw [hrec] at heq
          obtain ⟨hv, hc, ht⟩ := WaitRes.ret.inj heq
          subst hv
          obtain ⟨hc2, ht2, hcases⟩ := ih true c2 t2 hrec
          subst hc2
          subst ht2
          refine ⟨hc.symm, by rw [← ht], ?_⟩
          rcases hcases with ⟨hnz, hcond⟩ | ⟨pre, q, post, hsplit, h1, h2, h3, h4, h5⟩
          · have hkill : selfKilled = true := by
              rcases hcond with ⟨hhk, _⟩ | h
              · exact absurd hhk (by simp)
              · exact h
            refine Or.inl ⟨?_, Or.inr hkill⟩
            intro q hq hqp
            rcases List.mem_cons.mp hq with hq1 | hq2
            · rw [hq1]; exact hz
            · exact hnz q hq2 hqp
          · refine Or.inr ⟨pp :: pre, q, post,
              by rw [hsplit, List.cons_append], h1, h2, ?_, h4, h5⟩
            intro x hx
            rcases List.mem_cons.mp hx with hx1 | hx2
            · rw [hx1]; intro _; exact hz
            · exact h3 x hx2
        | sleepW t2 =>
          rw [hrec] at heq
          exact absurd heq (by simp)
    · rw [if_neg hpar] at heq
      cases hrec : waitScanAux self addr copyOk selfKilled rest hk with
      | ret v c2 t2 =>
        rw [hrec] at heq
        obtain ⟨hv, hc, ht⟩ := WaitRes.ret.inj heq
        subst hv
        obtain ⟨hc2, ht2, hcases⟩ := ih hk c2 t2 hrec
        subst hc2
        subst ht2
        refine ⟨hc.symm, by rw [← ht], ?_⟩
        rcases hcases with ⟨hnz, hcond⟩ | ⟨pre, q, post, hsplit, h1, h2, h3, h4, h5⟩
        · refine Or.inl ⟨?_, ?_⟩
          · intro q hq hqp
            rcases List.mem_cons.mp hq with hq1 | hq2
            · rw [hq1] at hqp; exact absurd hqp hpar
            · exact hnz q hq2 hqp
          · rcases hcond with ⟨hhk, hnp⟩ | h
            · refine Or.inl ⟨hhk, ?_⟩
              intro q hq
              rcases List.mem_cons.mp hq with hq1 | hq2
              · rw [hq1]; exact hpar
              · exact hnp q hq2
            · exact Or.inr h
        · refine Or.inr ⟨pp :: pre, q, post, by rw [hsplit, List.cons_append], h1, h2, ?_, h4, h5⟩
          intro x hx
          rcases List.mem_cons.mp hx with hx1 | hx2
          · rw [hx1]; intro hxp; exact absurd hxp hpar
          · exact h3 x hx2
      | sleepW t2 =>
        rw [hrec] at heq
        exact absurd heq (by simp)

/-- C4 counterexample: the claim "`wait(addr)` returns -1 if and only
if the calling process has no children" is false on the code.  A
caller with `killed` set and one live child in state `RUNNABLE` gets
-1 from the `if (!havekids || killed(p))` exit even though it has a
child. -/
theorem wait_killed_with_child_counterexample :
    waitOnce 1 0 true true [WProc.mk 1 PState.RUNNABLE 2 0] =
      WaitRes.ret (-1) none [WProc.mk 1 PState.RUNNABLE 2 0] ∧
    (WProc.mk 1 PState.RUNNABLE 2 0).parent = 1 :=
  ⟨rfl, rfl⟩

/-- C4 (amended): one scan of `wait(addr)` returns -1 exactly when
either no child of the caller is a zombie and (the caller has no
children at all **or its killed flag is set**), or the first zombie
child is found but `addr != 0` and the `copyout` of its exit status
fails; every -1 return leaves the process table unchanged and copies
nothing.  When a zombie child exists first at some position and the
copy succeeds (or `addr == 0`), `wait` copies that child's `xstate`
(when `addr != 0`), frees the child's slot, and returns the child's
pid. -/
theorem wait_return_characterization (self addr : Nat)
    (copyOk selfKilled : Bool) (t : List WProc) :
    ((∃ c t', waitOnce self addr copyOk selfKilled t =
        WaitRes.ret (-1) c t') ↔
      ((∀ pp ∈ t, pp.parent = self → pp.state ≠ PState.ZOMBIE) ∧
        ((∀ pp ∈ t, pp.parent ≠ self) ∨ selfKilled = true)) ∨
      (∃ pre pp post, t = pre ++ pp :: post ∧ pp.parent = self ∧
        pp.state = PState.ZOMBIE ∧
        (∀ q ∈ pre, q.parent = self → q.state ≠ PState.ZOMBIE) ∧
        addr ≠ 0 ∧ copyOk = false)) ∧
    (∀ c t', waitOnce self addr copyOk selfKilled t =
        WaitRes.ret (-1) c t' → c = none ∧ t' = t) ∧
    (∀ pre pp post, t = pre ++ pp :: post → pp.parent = self →
      pp.state = PState.ZOMBIE →
      (∀ q ∈ pre, q.parent = self → q.state ≠ PState.ZOMBIE) →
      (addr = 0 ∨ copyOk = true) →
      waitOnce self addr copyOk selfKilled t =
        WaitRes.ret (pp.pid : Int)
          (if addr = 0 then none else some pp.xstate)
          (pre ++ freedSlot :: post)) := by
  refine ⟨⟨?_, ?_⟩, ?_, ?_⟩
  · rintro ⟨c, t', heq⟩
    obtain ⟨_, _, hcases⟩ :=
      waitScanAux_ret_neg_inv self addr copyOk selfKilled t false c t' heq
    rcases hcases with ⟨hnz, hcond⟩ | hzomb
    · refine Or.inl ⟨hnz, ?_⟩
      rcases hcond with ⟨_, hnp⟩ | h
      · exact Or.inl hnp
      · exact Or.inr h
    · exact Or.inr hzomb
  · intro hcases
    rcases hcases with ⟨hnz, hcond⟩ | ⟨pre, pp, post, hsplit, h1, h2, h3, h4, h5⟩
    · refine ⟨none, t, ?_⟩
      apply waitScanAux_err self addr copyOk selfKilled t false hnz
      rcases hcond with h | h
      · exact Or.inl ⟨rfl, h⟩
      · exact Or.inr h
    · refine ⟨none, t, ?_⟩
      rw [hsplit]
      exact (waitScanAux_zombie self addr copyOk selfKilled pp post h1 h2
        pre false h3).1 ⟨h4, h5⟩
  · intro c t' heq
    obtain ⟨hc, ht, _⟩ :=
      waitScanAux_ret_neg_inv self addr copyOk selfKilled t false c t' heq
    exact ⟨hc, ht⟩
  · intro pre pp post hsplit h1 h2 h3 hok
    rw [hsplit]
    exact (waitScanAux_zombie self addr copyOk selfKilled pp post h1 h2
      pre false h3).2 hok

theorem wait_return_characterization_witness :
    ((∃ c t', waitOnce 1 8 true false
        [WProc.mk 1 PState.ZOMBIE 2 42] = WaitRes.ret (-1) c t') ↔
      ((∀ pp ∈ [WProc.mk 1 PState.ZOMBIE 2 42],
          pp.parent = 1 → pp.state ≠ PState.ZOMBIE) ∧
        ((∀ pp ∈ [WProc.mk 1 PState.ZOMBIE 2 42], pp.parent ≠ 1) ∨
          false = true)) ∨
      (∃ pre pp post,
        [WProc.mk 1 PState.ZOMBIE 2 42] = pre ++ pp :: post ∧
        pp.parent = 1 ∧ pp.state = PState.ZOMBIE ∧
        (∀ q ∈ pre, q.parent = 1 → q.state ≠ PState.ZOMBIE) ∧
        (8 : Nat) ≠ 0 ∧ true = false)) ∧
    (∀ c t', waitOnce 1 8 true false [WProc.mk 1 PState.ZOMBIE 2 42] =
        WaitRes.ret (-1) c t' →
      c = none ∧ t' = [WProc.mk 1 PState.ZOMBIE 2 42]) ∧
    (∀ pre pp post,
      [WProc.mk 1 PState.ZOMBIE 2 42] = pre ++ pp :: post →
      pp.parent = 1 → pp.state = PState.ZOMBIE →
      (∀ q ∈ pre, q.parent = 1 → q.state ≠ PState.ZOMBIE) →
      ((8 : Nat) = 0 ∨ true = true) →
      waitOnce 1 8 true false [WProc.mk 1 PState.ZOMBIE 2 42] =
        WaitRes.ret (pp.pid : Int)
          (if (8 : Nat) = 0 then none else some pp.xstate)
          (pre ++ freedSlot :: post)) :=
  wait_return_characterization 1 8 true false
    [WProc.mk 1 PState.ZOMBIE 2 42]

/-! ## Write-ahead log: commit and recovery (src/unnamed/part_003)

The disk is a map from block number to block content.  A block is
either the log header (observable content: the `n` recorded block
numbers `block[0..n)`, modelled as a list) or a data block (content
abstracted to one value).  `commit()` (for `lh.n > 0`) emits this
sequence of synchronous disk writes:

1. `write_log()`  — for each `tail`, copy the cached (new) content of
   home block `lh.block[tail]` to log block `start + tail + 1`;
2. `write_head()` — write the header listing the home blocks: the
   commit point;
3. `install_trans(0)` — for each `tail`, read log block
   `start + tail + 1` from the evolving disk and write it to home
   block `lh.block[tail]`;
4. `log.lh.n = 0; write_head()` — write the empty header.

`v b` is the in-cache (new) content of home block `b` at commit time;
the old content is the initial disk.  A crash truncates the write
sequence after an arbitrary prefix; `recover_from_log` then reads the
header, installs `n` log blocks, and clears the header. -/

inductive Blk where
  | hdr (bl : List Nat) : Blk
  | data (x : Nat) : Blk
deriving DecidableEq

/-- One disk block write. -/
def dwrite (d : Nat → Blk) (a : Nat) (x : Blk) : Nat → Blk :=
  fun y => if y = a then x else d y

/-- Apply a sequence of block writes in order. -/
def applyWrites (d : Nat → Blk) : List (Nat × Blk) → Nat → Blk
  | [] => d
  | w :: ws => applyWrites (dwrite d w.1 w.2) ws

/-- The disk writes of `write_log()`: log block `start + tail + 1`
receives the cached content `v b` of home block `b`. -/
def write_log_trace (start : Nat) (v : Nat → Nat) :
    List Nat → Nat → List (Nat × Blk)
  | [], _ => []
  | b :: rest, tail =>
    (start + tail + 1, Blk.data (v b)) ::
      write_log_trace start v rest (tail + 1)

/-- `install_trans`: for each recorded home block, read log block
`start + tail + 1` from the current disk and write it home.  Returns
the resulting disk and the trace of home-block writes. -/
def install_trans_go (start : Nat) :
    (Nat → Blk) → List Nat → Nat → ((Nat → Blk) × List (Nat × Blk))
  | d, [], _ => (d, [])
  | d, b :: rest, tail =>
    let val := d (start + tail + 1)
    let r := install_trans_go start (dwrite d b val) rest (tail + 1)
    (r.1, (b, val) :: r.2)

/-- `read_head()`: the header block's recorded block numbers.  In
every reachable state the block at `start` is a header; the `data`
fallback (raw bytes reinterpreted) is never exercised under this
file's hypotheses. -/
def read_head (d : Nat → Blk) (start : Nat) : List Nat :=
  match d start with
  | Blk.hdr bl => bl
  | Blk.data _ => []

/-- `recover_from_log()`: read the header, install the recorded
blocks (`install_trans(1)`), and clear the header on disk. -/
def recover_from_log (d : Nat → Blk) (start : Nat) : Nat → Blk :=
  dwrite (install_trans_go start d (read_head d start) 0).1 start
    (Blk.hdr [])

/-- The disk-write sequence of `commit()` on initial disk `d0`, for a
transaction over home blocks `bl` (the in-memory header contents) with
cached new values `v`.  Empty when `lh.n == 0`. -/
def commit_trace (d0 : Nat → Blk) (start : Nat) (bl : List Nat)
    (v : Nat → Nat) : List (Nat × Blk) :=
  if bl.length = 0 then []
  else
    let w1 := write_log_trace start v bl 0
    let d2 := dwrite (applyWrites d0 w1) start (Blk.hdr bl)
    w1 ++ (start, Blk.hdr bl) ::
      ((install_trans_go start d2 bl 0).2 ++ [(start, Blk.hdr [])])

theorem applyWrites_append (l1 l2 : List (Nat × Blk)) :
    ∀ d, applyWrites d (l1 ++ l2) = applyWrites (applyWrites d l1) l2 := by
  induction l1 with
  | nil => intro d; rfl
  | cons w ws ih =>
    intro d
    simp only [List.cons_append, applyWrites]
    exact ih (dwrite d w.1 w.2)

theorem applyWrites_out (x : Nat) :
    ∀ (ws : List (Nat × Blk)) (d : Nat → Blk),
    (∀ w ∈ ws, w.1 ≠ x) → applyWrites d ws x = d x := by
  intro ws
  induction ws with
  | nil => intro d _; rfl
  | cons w ws ih =>
    intro d hne
    simp only [applyWrites]
    rw [ih (dwrite d w.1 w.2) (fun u hu => hne u (by simp [hu]))]
    unfold dwrite
    rw [if_neg]
    exact fun hc => hne w (by simp) (by rw [hc])

theorem write_log_trace_length (start : Nat) (v : Nat → Nat) :
    ∀ (bl : List Nat) (tail : Nat),
    (write_log_trace start v bl tail).length = bl.length := by
  intro bl
  induction bl with
  | nil => intro tail; rfl
  | cons b rest ih =>
    intro tail
    simp only [write_log_trace, List.length_cons]
    rw [ih (tail + 1)]

theorem write_log_trace_addr (start : Nat) (v : Nat → Nat) :
    ∀ (bl : List Nat) (tail : Nat) (w : Nat × Blk),
    w ∈ write_log_trace start v bl tail →
    start + tail + 1 ≤ w.1 ∧ w.1 ≤ start + tail + bl.length := by
  intro bl
  induction bl with
  | nil => intro tail w hw; exact absurd hw (by simp [write_log_trace])
  | cons b rest ih =>
    intro tail w hw
    simp only [write_log_trace, List.mem_cons] at hw
    rcases hw with hw | hw
    · rw [hw]
      simp only [List.length_cons]
      omega
    · have := ih (tail + 1) w hw
      simp only [List.length_cons]
      omega

/-- The log region holds the transaction: for each remaining home
block `b` at position `tail`, log block `start + tail + 1` holds the
new content `v b`. -/
def logHolds (start : Nat) (v : Nat → Nat) (d : Nat → Blk) :
    List Nat → Nat → Prop
  | [], _ => True
  | b :: rest, tail =>
    d (start + tail + 1) = Blk.data (v b) ∧
      logHolds start v d rest (tail + 1)

theorem logHolds_dwrite_out (start : Nat) (v : Nat → Nat) :
    ∀ (l : List Nat) (tail : Nat) (d : Nat → Blk) (a : Nat) (x : Blk),
    (a < start + tail + 1 ∨ start + tail + l.length < a) →
    logHolds start v d l tail → logHolds start v (dwrite d a x) l tail := by
  intro l
  induction l with
  | nil => intro tail d a x _ _; trivial
  | cons b rest ih =>
    intro tail d a x hout hh
    obtain ⟨h1, h2⟩ := hh
    constructor
    · unfold dwrite
      rw [if_neg (by simp only [List.length_cons] at hout; omega), h1]
    · apply ih (tail + 1) d a x _ h2
      simp only [List.length_cons] at hout
      omega

theorem logHolds_applyWrites_out (start : Nat) (v : Nat → Nat)
    (l : List Nat) (tail : Nat) :
    ∀ (ws : List (Nat × Blk)) (d : Nat → Blk),
    (∀ w ∈ ws, w.1 < start + tail + 1 ∨ start + tail + l.length < w.1) →
    logHolds start v d l tail → logHolds start v (applyWrites d ws) l tail := by
  intro ws
  induction ws with
  | nil => intro d _ hh; exact hh
  | cons w ws ih =>
    intro d hout hh
    simp only [applyWrites]
    apply ih (dwrite d w.1 w.2) (fun u hu => hout u (by simp [hu]))
    exact logHolds_dwrite_out start v l tail d w.1 w.2 (hout w (by simp)) hh

theorem logHolds_write_log (start : Nat) (v : Nat → Nat) :
    ∀ (bl : List Nat) (tail : Nat) (d : Nat → Blk),
    logHolds start v (applyWrites d (write_log_trace start v bl tail))
      bl tail := by
  intro bl
  induction bl with
  | nil => intro tail d; trivial
  | cons b rest ih =>
    intro tail d
    simp only [write_log_trace, applyWrites]
    constructor
    · rw [applyWrites_out (start + tail + 1) _ _ ?_]
      · unfold dwrite
        rw [if_pos rfl]
      · intro w hw
        have := write_log_trace_addr start v rest (tail + 1) w hw
        omega
    · exact ih (tail + 1) (dwrite d (start + tail + 1) (Blk.data (v b)))

theorem install_go_out (start : Nat) (x : Nat) :
    ∀ (l : List Nat) (tail : Nat) (d : Nat → Blk), x ∉ l →
    (install_trans_go start d l tail).1 x = d x := by
  intro l
  induction l with
  | nil => intro tail d _; rfl
  | cons b rest ih =>
    intro tail d hx
    simp only [install_trans_go]
    rw [ih (tail + 1) _ (fun hc => hx (by simp [hc]))]
    unfold dwrite
    rw [if_neg (fun hc => hx (by simp [hc]))]

theorem install_go_trace (start : Nat) (v : Nat → Nat) :
    ∀ (l : List Nat) (tail : Nat) (d : Nat → Blk),
    logHolds start v d l tail →
    (∀ b ∈ l, start + tail + l.length < b) →
    (install_trans_go start d l tail).2 =
      l.map (fun b => (b, Blk.data (v b))) := by
  intro l
  induction l with
  | nil => intro tail d _ _; rfl
  | cons b rest ih =>
    intro tail d hh hdisj
    obtain ⟨h1, h2⟩ := hh
    simp only [install_trans_go, List.map_cons]
    rw [h1]
    have hb : start + tail + (b :: rest).length < b := hdisj b (by simp)
    simp only [List.length_cons] at hb
    rw [ih (tail + 1) _ ?_ ?_]
    · apply logHolds_dwrite_out
      · omega
      · exact h2
    · intro q hq
      have := hdisj q (by simp [hq])
      simp only [List.length_cons] at this
      omega

theorem install_go_homes (start : Nat) (v : Nat → Nat) :
    ∀ (l : List Nat) (tail : Nat) (d : Nat → Blk),
    logHolds start v d l tail →
    (∀ b ∈ l, start + tail + l.length < b) →
    ∀ b ∈ l, (install_trans_go start d l tail).1 b = Blk.data (v b) := by
  intro l
  induction l with
  | nil => intro tail d _ _ b hb; exact absurd hb (by simp)
  | cons b0 rest ih =>
    intro tail d hh hdisj b hb
    obtain ⟨h1, h2⟩ := hh
    have hrest : logHolds start v (dwrite d b0 (d (start + tail + 1)))
        rest (tail + 1) := by
      apply logHolds_dwrite_out
      · have := hdisj b0 (by simp)
        simp only [List.length_cons] at this
        omega
      · exact h2
    have hdisj' : ∀ q ∈ rest, start + (tail + 1) + rest.length < q := by
      intro q hq
      have := hdisj q (by simp [hq])
      simp only [List.length_cons] at this
      omega
    rcases List.mem_cons.mp hb with hb0 | hbr
    · subst hb0
      by_cases hbr : b ∈ rest
      · simp only [install_trans_go]
        exact ih (tail + 1) _ hrest hdisj' b hbr
      · simp only [install_trans_go]
        rw [install_go_out start b rest (tail + 1) _ hbr]
        unfold dwrite
        rw [if_pos rfl, h1]
    · simp only [install_trans_go]
      exact ih (tail + 1) _ hrest hdisj' b hbr

theorem install_go_disk (start : Nat) :
    ∀ (l : List Nat) (tail : Nat) (d : Nat → Blk),
    (install_trans_go start d l tail).1 =
      applyWrites d (install_trans_go start d l tail).2 := by
  intro l
  induction l with
  | nil => intro tail d; rfl
  | cons b rest ih =>
    intro tail d
    simp only [install_trans_go, applyWrites]
    exact ih (tail + 1) (dwrite d b (d (start + tail + 1)))

/-- C1: Crash atomicity of the log.  For a transaction committed
through `commit()` — write the log data blocks, then the header whose
non-empty block list is the commit point, then install the home
blocks, then clear the header — if a crash truncates the disk-write
sequence after any prefix, then running `recover_from_log` yields a
disk on which either every home block of the transaction holds its new
value `v b`, or every home block holds its old value `d0 b`.
Hypotheses: the log was clear on entry (the on-disk header is empty,
as `end_op`/recovery leave it), and the home blocks lie outside the
log region `[start, start + lh.n]`. -/
theorem log_crash_atomicity (d0 : Nat → Blk) (start : Nat)
    (bl : List Nat) (v : Nat → Nat) (k : Nat)
    (h0 : d0 start = Blk.hdr [])
    (hdisj : ∀ b ∈ bl, start + bl.length < b) :
    (∀ b ∈ bl,
      recover_from_log
        (applyWrites d0 ((commit_trace d0 start bl v).take k)) start b =
        Blk.data (v b)) ∨
    (∀ b ∈ bl,
      recover_from_log
        (applyWrites d0 ((commit_trace d0 start bl v).take k)) start b =
        d0 b) := by
  by_cases hnil : bl.length = 0
  · right
    obtain rfl : bl = [] := List.length_eq_zero.mp hnil
    intro b hb
    exact absurd hb (by simp)
  · have htr : commit_trace d0 start bl v =
        write_log_trace start v bl 0 ++ (start, Blk.hdr bl) ::
          ((install_trans_go start
              (dwrite (applyWrites d0 (write_log_trace start v bl 0))
                start (Blk.hdr bl)) bl 0).2 ++ [(start, Blk.hdr [])]) := by
      unfold commit_trace
      rw [if_neg hnil]
    have hw1len : (write_log_trace start v bl 0).length = bl.length :=
      write_log_trace_length start v bl 0
    have hdisj' : ∀ b ∈ bl, start + 0 + bl.length < b := by
      intro b hb
      have := hdisj b hb
      omega
    have hlogd1 : logHolds start v
        (applyWrites d0 (write_log_trace start v bl 0)) bl 0 :=
      logHolds_write_log start v bl 0 d0
    have hlogd2 : logHolds start v
        (dwrite (applyWrites d0 (write_log_trace start v bl 0))
          start (Blk.hdr bl)) bl 0 := by
      apply logHolds_dwrite_out
      · left
        omega
      · exact hlogd1
    have htrace : (install_trans_go start
        (dwrite (applyWrites d0 (write_log_trace start v bl 0))
          start (Blk.hdr bl)) bl 0).2 =
        bl.map (fun b => (b, Blk.data (v b))) :=
      install_go_trace start v bl 0 _ hlogd2 hdisj'
    have hw3len : (install_trans_go start
        (dwrite (applyWrites d0 (write_log_trace start v bl 0))
          start (Blk.hdr bl)) bl 0).2.length = bl.length := by
      rw [htrace, List.length_map]
    by_cases hk1 : k ≤ bl.length
    · -- crash during or right after write_log: nothing committed
      right
      rw [htr, List.take_append_eq_append_take, hw1len,
        Nat.sub_eq_zero_of_le hk1, List.take_zero, List.append_nil]
      have hpref : ∀ w ∈ (write_log_trace start v bl 0).take k,
          start + 1 ≤ w.1 ∧ w.1 ≤ start + bl.length := by
        intro w hw
        have := write_log_trace_addr start v bl 0 w (List.take_subset k _ hw)
        omega
      have hdcs : applyWrites d0 ((write_log_trace start v bl 0).take k)
          start = Blk.hdr [] := by
        rw [applyWrites_out start _ d0 ?_, h0]
        intro w hw
        have := hpref w hw
        omega
      have hdcb : ∀ b ∈ bl,
          applyWrites d0 ((write_log_trace start v bl 0).take k) b =
            d0 b := by
        intro b hb
        apply applyWrites_out
        intro w hw
        have h1 := hpref w hw
        have h2 := hdisj b hb
        omega
      intro b hb
      unfold recover_from_log
      have hrh : read_head
          (applyWrites d0 ((write_log_trace start v bl 0).take k)) start =
          [] := by
        unfold read_head
        rw [hdcs]
      rw [hrh]
      unfold install_trans_go
      unfold dwrite
      rw [if_neg (by have := hdisj b hb; omega)]
      exact hdcb b hb
    · -- the header write is in the prefix: the transaction is committed
      left
      have hk2 : bl.length + 1 ≤ k := by omega
      obtain ⟨j, hj⟩ : ∃ j, k - bl.length = j + 1 :=
        ⟨k - bl.length - 1, by omega⟩
      rw [htr, List.take_append_eq_append_take, hw1len, hj,
        List.take_of_length_le (by omega), List.take_succ_cons,
        applyWrites_append]
      simp only [applyWrites]
      by_cases hj1 : j ≤ bl.length
      · -- crash during install_trans (or right before/after)
        rw [List.take_append_of_le_length (by omega)]
        have hpref : ∀ w ∈ (install_trans_go start
            (dwrite (applyWrites d0 (write_log_trace start v bl 0))
              start (Blk.hdr bl)) bl 0).2.take j,
            start + bl.length < w.1 := by
          intro w hw
          have hmem := List.take_subset j _ hw
          rw [htrace] at hmem
          obtain ⟨b, hb, hbe⟩ := List.mem_map.mp hmem
          have := hdisj b hb
          rw [← hbe]
          omega
        have hdcs : applyWrites
            (dwrite (applyWrites d0 (write_log_trace start v bl 0))
              start (Blk.hdr bl))
            ((install_trans_go start
              (dwrite (applyWrites d0 (write_log_trace start v bl 0))
                start (Blk.hdr bl)) bl 0).2.take j) start = Blk.hdr bl := by
          rw [applyWrites_out start _ _ ?_]
          · unfold dwrite
            rw [if_pos rfl]
          · intro w hw
            have := hpref w hw
            omega
        have hlogdc : logHolds start v (applyWrites
            (dwrite (applyWrites d0 (write_log_trace start v bl 0))
              start (Blk.hdr bl))
            ((install_trans_go start
              (dwrite (applyWrites d0 (write_log_trace start v bl 0))
                start (Blk.hdr bl)) bl 0).2.take j)) bl 0 := by
          apply logHolds_applyWrites_out
          · intro w hw
            right
            have := hpref w hw
            omega
          · exact hlogd2
        intro b hb
        unfold recover_from_log
        have hrh : read_head (applyWrites
            (dwrite (applyWrites d0 (write_log_trace start v bl 0))
              start (Blk.hdr bl))
            ((install_trans_go start
              (dwrite (applyWrites d0 (write_log_trace start v bl 0))
                start (Blk.hdr bl)) bl 0).2.take j)) start = bl := by
          unfold read_head
          rw [hdcs]
        rw [hrh]
        unfold dwrite
        rw [if_neg (by have := hdisj b hb; omega)]
        exact install_go_homes start v bl 0 _ hlogdc hdisj' b hb
      · -- the whole sequence (install and header clear) ran
        rw [List.take_of_length_le
          (by rw [List.length_append, hw3len]; simp; omega)]
        rw [applyWrites_append]
        rw [← install_go_disk]
        simp only [applyWrites]
        intro b hb
        have hhomes := install_go_homes start v bl 0 _ hlogd2 hdisj' b hb
        unfold recover_from_log
        have hne : b ≠ start := by
          have := hdisj b hb
          omega
        have hdcs : dwrite (install_trans_go start
            (dwrite (applyWrites d0 (write_log_trace start v bl 0))
              start (Blk.hdr bl)) bl 0).1 start (Blk.hdr []) start =
            Blk.hdr [] := by
          unfold dwrite
          rw [if_pos rfl]
        have hrh : read_head (dwrite (install_trans_go start
            (dwrite (applyWrites d0 (write_log_trace start v bl 0))
              start (Blk.hdr bl)) bl 0).1 start (Blk.hdr [])) start = [] := by
          unfold read_head
          rw [hdcs]
        rw [hrh]
        have hred : dwrite (install_trans_go start (dwrite
            (install_trans_go start
              (dwrite (applyWrites d0 (write_log_trace start v bl 0))
                start (Blk.hdr bl)) bl 0).1 start (Blk.hdr [])) [] 0).1
            start (Blk.hdr []) b =
            dwrite (dwrite (install_trans_go start
              (dwrite (applyWrites d0 (write_log_trace start v bl 0))
                start (Blk.hdr bl)) bl 0).1 start (Blk.hdr []))
              start (Blk.hdr []) b := rfl
        rw [hred]
        unfold dwrite
        rw [if_neg hne, if_neg hne]
        exact hhomes

theorem log_crash_atomicity_witness :
    (∀ b ∈ [5],
      recover_from_log
        (applyWrites (fun _ => Blk.hdr [])
          ((commit_trace (fun _ => Blk.hdr []) 0 [5]
            (fun x => x + 1)).take 2)) 0 b =
        Blk.data ((fun x => x + 1) b)) ∨
    (∀ b ∈ [5],
      recover_from_log
        (applyWrites (fun _ => Blk.hdr [])
          ((commit_trace (fun _ => Blk.hdr []) 0 [5]
            (fun x => x + 1)).take 2)) 0 b =
        (fun _ => Blk.hdr []) b) :=
  log_crash_atomicity (fun _ => Blk.hdr []) 0 [5] (fun x => x + 1) 2
    rfl (by decide)
